import Mathlib

/-!
Verification of the HERMES packed-ciphertext vector engine.

The development shallowly embeds the slot-level semantics of the HERMES
MySQL UDFs (src/pack/packing.cpp, src/pack/packsum.cpp,
src/pack/packupdate.cpp) and the key-generation logic
(src/crypto/keygen.cpp), together with the byte-level base64 codec
(src/crypto/base64.cpp).

Ciphertexts are modelled by the plaintext slot vectors they decrypt to,
over the plaintext ring `ZMod 268369921` fixed by `makeBfvContext`
(src/crypto/context.cpp).  The external engine operations `EvalAdd`,
`EvalMult` (by plaintext) and `EvalAtIndex` are modelled from the spec's
CiphertextAlgebra contract (spec section 4.5): additive and multiplicative
homomorphism hold slot-wise, and rotation is a cyclic group action on slot
indices modulo the slot count `N`.  `Encrypt` is probabilistic in the
engine and is represented here by its decryption value, so encryption is
the identity at this level of abstraction.
-/

namespace Hermes

/-- Plaintext modulus fixed by `makeBfvContext` (src/crypto/context.cpp):
`params.SetPlaintextModulus(268369921)`. -/
def plaintextModulus : ℕ := 268369921

/-- The plaintext slot ring. -/
abbrev Pt := ZMod plaintextModulus

/-- A ciphertext over `N` slots, modelled by the plaintext slot vector it
decrypts to. -/
abbrev Vec (N : ℕ) := Fin N → Pt

/-- Modelled from the spec: the external CiphertextAlgebra `Add` (section
4.5, OpenFHE `EvalAdd`) — additive homomorphism over slots. -/
def evalAdd {N : ℕ} (x y : Vec N) : Vec N := fun j => x j + y j

/-- Modelled from the spec: the external CiphertextAlgebra `Mult` by a
plaintext (section 4.5, OpenFHE `EvalMult(ct, pt)`) — multiplicative
homomorphism over slots. -/
def evalMult {N : ℕ} (x p : Vec N) : Vec N := fun j => x j * p j

/-- Modelled from the spec: the external CiphertextAlgebra `Rotate`
(section 4.5, OpenFHE `EvalAtIndex`) — a cyclic group action on slot
indices modulo `N`; a positive offset `r` carries the value of slot
`j + r` into slot `j`. -/
def evalAtIndex {N : ℕ} (x : Vec N) (r : ℤ) : Vec N := fun j =>
  x ⟨(((j : ℤ) + r) % (N : ℤ)).toNat, by
    have hN : 0 < N := j.pos
    have h1 : 0 ≤ ((j : ℤ) + r) % (N : ℤ) :=
      Int.emod_nonneg _ (by exact_mod_cast hN.ne')
    have h2 : ((j : ℤ) + r) % (N : ℤ) < (N : ℤ) :=
      Int.emod_lt_of_pos _ (by exact_mod_cast hN)
    omega⟩

/-- `MakePackedPlaintext` followed by `SetLength(slot_count)`: the list of
values occupies the leading slots and the remainder is zero-padded
(OpenFHE packed encoding, as used throughout src/pack). -/
def makePackedPlaintext (N : ℕ) (values : List ℤ) : Vec N := fun j =>
  ((values.getD j 0 : ℤ) : Pt)

/-- Modelled from the spec: `Encrypt` (section 4.5) is probabilistic and
two encryptions are only decryption-equivalent, so at the
decryption-level model it is the identity on slot vectors. -/
def encryptPt (N : ℕ) (pt : Vec N) : Vec N := pt

/-- `HERMES_PACK_ADD(ciphertext, val, index)`
(src/pack/packupdate.cpp, lines 103-140): bounds-check the index against
the slot count, build a one-hot vector with `new_val` at `index`, encrypt
it, and `EvalAdd` it onto the input ciphertext.  Out-of-range `index`
returns NULL with the error flag set, modelled as `none`. -/
def hermesPackAdd (N : ℕ) (ct : Vec N) (newVal index : ℤ) : Option (Vec N) :=
  if index < 0 ∨ (N : ℤ) ≤ index then none
  else
    some (evalAdd ct
      (encryptPt N (makePackedPlaintext N
        ((List.replicate N (0 : ℤ)).set index.toNat newVal))))

/-- The rotation offset `(k - 1) - index` used by `HERMES_PACK_RMV`
(`cc->EvalAtIndex(ct_last_val, (k - 1) - index)`,
src/pack/packupdate.cpp line 238). -/
def rmvRotOffset (index k : ℤ) : ℤ := (k - 1) - index

/-- `HERMES_PACK_RMV(ciphertext, index_to_remove, current_slot_count)`
(src/pack/packupdate.cpp, lines 166-291).  After the bounds check the
function unconditionally calls `loadSecretKey()` (line 187) to decrypt
and print intermediate ciphertexts; `skOk` records whether the secret-key
file is readable — when it is not, `loadSecretKey` throws and the catch
block returns NULL with the error flag set (`none`).  The decrypted
values themselves are only printed and never influence the result, so
they do not appear in the model.  The remaining pipeline: mask-zero at
`index`; if `index = k - 1` return the masked ciphertext, otherwise
extract slot `k-1` with a one-hot mask, rotate it by `(k-1) - index`,
add, and clear slot `k-1`. -/
def hermesPackRmv (N : ℕ) (skOk : Bool) (ct : Vec N) (index k : ℤ) :
    Option (Vec N) :=
  if index < 0 ∨ k ≤ index ∨ (N : ℤ) < k then none
  else if skOk = false then none
  else
    let ptMask := makePackedPlaintext N ((List.replicate N (1 : ℤ)).set index.toNat 0)
    if index = k - 1 then some (evalMult ct ptMask)
    else
      let ctCleared := evalMult ct ptMask
      let ptLast := makePackedPlaintext N ((List.replicate N (0 : ℤ)).set (k - 1).toNat 1)
      let ctLastVal := evalMult ct ptLast
      let ctShifted := evalAtIndex ctLastVal (rmvRotOffset index k)
      let ctUpdated := evalAdd ctCleared ctShifted
      let ptFinalMask := makePackedPlaintext N ((List.replicate N (1 : ℤ)).set (k - 1).toNat 0)
      some (evalMult ctUpdated ptFinalMask)

/-- Element `j` of `(List.replicate N a).set i b` when both indices are in
range. -/
lemma getD_replicate_set (N : ℕ) (a b : ℤ) (i j : ℕ) (hj : j < N) :
    ((List.replicate N a).set i b).getD j 0 = if j = i then b else a := by
  have hlen : ((List.replicate N a).set i b).length = N := by simp
  rw [List.getD_eq_getElem _ _ (by omega)]
  rw [List.getElem_set]
  split
  · simp_all
  · rw [List.getElem_replicate]
    simp_all [eq_comm]

/-- Slot `j` of the packed encoding of `(List.replicate N a).set i b`. -/
lemma makePackedPlaintext_replicate_set (N : ℕ) (a b : ℤ) (i : ℕ) (j : Fin N) :
    makePackedPlaintext N ((List.replicate N a).set i b) j =
      if (j : ℕ) = i then (b : Pt) else (a : Pt) := by
  unfold makePackedPlaintext
  rw [getD_replicate_set _ _ _ _ _ j.isLt]
  split <;> rfl

/-- C4: `Insert(ct, value, index)` with `0 ≤ index < N` returns
`Add(ct, Encrypt(one_hot))`, so every slot `j` of the result decrypts to
the slot `j` of `ct` plus (`value` if `j = index` else `0`): inserting
into an occupied slot accumulates rather than replaces
(HERMES_PACK_ADD, src/pack/packupdate.cpp). -/
theorem packAdd_spec (N : ℕ) (ct : Vec N) (v index : ℤ) (h0 : 0 ≤ index)
    (hN : index < (N : ℤ)) :
    ∃ r, hermesPackAdd N ct v index = some r ∧
      r = evalAdd ct (encryptPt N (makePackedPlaintext N
        ((List.replicate N (0 : ℤ)).set index.toNat v))) ∧
      ∀ j : Fin N, r j = ct j + (if (j : ℕ) = index.toNat then (v : Pt) else 0) := by
  refine ⟨evalAdd ct (encryptPt N (makePackedPlaintext N
      ((List.replicate N (0 : ℤ)).set index.toNat v))), ?_, rfl, ?_⟩
  · unfold hermesPackAdd
    rw [if_neg (by omega)]
  · intro j
    unfold evalAdd encryptPt
    rw [makePackedPlaintext_replicate_set]
    split <;> simp

/-- Witness for C4 at `N = 4`, `ct = Encode [10, 20, 30]`, `value = 7`,
`index = 2`. -/
theorem packAdd_spec_witness :
    ∃ r, hermesPackAdd 4 (makePackedPlaintext 4 [10, 20, 30]) 7 2 = some r ∧
      r = evalAdd (makePackedPlaintext 4 [10, 20, 30])
        (encryptPt 4 (makePackedPlaintext 4
          ((List.replicate 4 (0 : ℤ)).set (2 : ℤ).toNat 7))) ∧
      ∀ j : Fin 4, r j = makePackedPlaintext 4 [10, 20, 30] j +
        (if (j : ℕ) = (2 : ℤ).toNat then ((7 : ℤ) : Pt) else 0) :=
  packAdd_spec 4 (makePackedPlaintext 4 [10, 20, 30]) 7 2 (by norm_num) (by norm_num)

/-- C5: `Remove(ct, index, k)` fails (returns NULL with the error flag,
modelled `none`) exactly when the precondition `0 ≤ index < k ≤ N` is
violated — in particular for `index = -1` and `index = k`.  The model is
a pure function of the serialized input ciphertext, which the source
never writes back (HERMES_PACK_RMV only reads `args->args[0]`), so the
stored ciphertext re-decodes unchanged after a failed call. -/
theorem packRmv_indexError_iff (N : ℕ) (ct : Vec N) (index k : ℤ) :
    hermesPackRmv N true ct index k = none ↔
      ¬ (0 ≤ index ∧ index < k ∧ k ≤ (N : ℤ)) := by
  unfold hermesPackRmv
  by_cases h : index < 0 ∨ k ≤ index ∨ (N : ℤ) < k
  · rw [if_pos h]
    simp only [true_iff]
    omega
  · rw [if_neg h, if_neg (by simp)]
    have hp : 0 ≤ index ∧ index < k ∧ k ≤ (N : ℤ) := by omega
    split
    · exact iff_of_false (by simp) (not_not_intro hp)
    · exact iff_of_false (by simp) (not_not_intro hp)

/-- C10: when the secret-key file is missing or unreadable
(`loadSecretKey` throws, src/crypto/keygen.cpp lines 82-90),
`HERMES_PACK_RMV` returns NULL with the error flag set for every input —
args failing the bounds check error out anyway, and all others reach the
unconditional `loadSecretKey()` call (src/pack/packupdate.cpp line 187)
whose failure is caught and surfaced as an error, even though the
decrypted values are only debug-printed and the returned ciphertext never
depends on them. -/
theorem packRmv_fails_without_sk (N : ℕ) (ct : Vec N) (index k : ℤ) :
    hermesPackRmv N false ct index k = none := by
  unfold hermesPackRmv
  split
  · rfl
  · rw [if_pos rfl]

/-- The cyclic rotation by `(k-1) - index` maps slot `j` onto the source
slot `k-1` exactly when `j = index`. -/
lemma rmv_rot_hits_last_iff (N i k j : ℕ) (hj : j < N) (hik : i < k)
    (hkN : k ≤ N) :
    ((((j : ℤ) + rmvRotOffset (i : ℤ) (k : ℤ)) % (N : ℤ)).toNat = k - 1) ↔ j = i := by
  simp only [rmvRotOffset]
  have hx0 : 0 ≤ (j : ℤ) + ((k : ℤ) - 1 - (i : ℤ)) := by omega
  rcases lt_or_le ((j : ℤ) + ((k : ℤ) - 1 - (i : ℤ))) (N : ℤ) with h | h
  · rw [Int.emod_eq_of_lt hx0 h]
    omega
  · rw [Int.emod_eq_sub_self_emod, Int.emod_eq_of_lt (by omega) (by omega)]
    omega

/-- C1: `Remove(ct, index, k)` under `0 ≤ index < k ≤ N`, on a ciphertext
of logical length `k` (valid data in `[0, k)`, zero elsewhere — the
meaning of the externally tracked `k`), succeeds and returns a dense
vector of logical length `k-1`: slots below `k-1` other than `index` keep
their values (relative order unchanged), slots from `k-1` on are zero,
and for an interior removal (`index < k-1`) slot `index` now holds the
element formerly at slot `k-1`.  For `index = k-1` (including `k = 1`,
`index = 0`) the result is exactly `Mult(ct, mask_zero_at(index))` with
no rotation (HERMES_PACK_RMV, src/pack/packupdate.cpp). -/
theorem packRmv_spec (N i k : ℕ) (ct : Vec N) (hik : i < k) (hkN : k ≤ N)
    (hdense : ∀ j : Fin N, k ≤ (j : ℕ) → ct j = 0) :
    ∃ r, hermesPackRmv N true ct (i : ℤ) (k : ℤ) = some r ∧
      (i = k - 1 → r = evalMult ct (makePackedPlaintext N
        ((List.replicate N (1 : ℤ)).set i 0))) ∧
      (∀ j : Fin N, (j : ℕ) < k - 1 → (j : ℕ) ≠ i → r j = ct j) ∧
      (∀ j : Fin N, k - 1 ≤ (j : ℕ) → r j = 0) ∧
      (i < k - 1 → r ⟨i, by omega⟩ = ct ⟨k - 1, by omega⟩) := by
  have hneg : ¬ ((i : ℤ) < 0 ∨ (k : ℤ) ≤ (i : ℤ) ∨ (N : ℤ) < (k : ℤ)) := by omega
  have htoi : ((i : ℤ)).toNat = i := by omega
  have htok : (((k : ℤ)) - 1).toNat = k - 1 := by omega
  by_cases hcase : (i : ℤ) = (k : ℤ) - 1
  · -- tail case: remove the last occupied slot, no rotation
    have hi' : i = k - 1 := by omega
    refine ⟨evalMult ct (makePackedPlaintext N
        ((List.replicate N (1 : ℤ)).set i 0)), ?_, fun _ => rfl, ?_, ?_, ?_⟩
    · unfold hermesPackRmv
      rw [if_neg hneg, if_neg (by simp), if_pos hcase, htoi]
    · intro j hj hji
      unfold evalMult
      rw [makePackedPlaintext_replicate_set, if_neg hji]
      simp
    · intro j hj
      unfold evalMult
      rw [makePackedPlaintext_replicate_set]
      rcases eq_or_lt_of_le hj with h | h
      · rw [if_pos (by omega)]
        simp
      · rw [if_neg (by omega), hdense j (by omega)]
        simp
    · intro h
      omega
  · -- interior case: compact by moving the trailing element into the gap
    have hlt : i < k - 1 := by omega
    refine ⟨evalMult (evalAdd (evalMult ct (makePackedPlaintext N
        ((List.replicate N (1 : ℤ)).set i 0)))
        (evalAtIndex (evalMult ct (makePackedPlaintext N
          ((List.replicate N (0 : ℤ)).set (k - 1) 1))) (rmvRotOffset (i : ℤ) (k : ℤ))))
        (makePackedPlaintext N ((List.replicate N (1 : ℤ)).set (k - 1) 0)),
      ?_, fun h => absurd h (by omega), ?_, ?_, ?_⟩
    · unfold hermesPackRmv
      rw [if_neg hneg, if_neg (by simp)]
      dsimp only
      rw [if_neg hcase, htoi, htok]
    all_goals
      have hmask : ∀ j : Fin N, makePackedPlaintext N
          ((List.replicate N (1 : ℤ)).set i 0) j = if (j : ℕ) = i then 0 else 1 := by
        intro j
        rw [makePackedPlaintext_replicate_set]
        split <;> simp
      have hfinm : ∀ j : Fin N, makePackedPlaintext N
          ((List.replicate N (1 : ℤ)).set (k - 1) 0) j =
            if (j : ℕ) = k - 1 then 0 else 1 := by
        intro j
        rw [makePackedPlaintext_replicate_set]
        split <;> simp
      have hshift : ∀ j : Fin N, evalAtIndex (evalMult ct (makePackedPlaintext N
          ((List.replicate N (0 : ℤ)).set (k - 1) 1))) (rmvRotOffset (i : ℤ) (k : ℤ)) j =
            if (j : ℕ) = i then ct ⟨k - 1, by omega⟩ else 0 := by
        intro j
        unfold evalAtIndex evalMult
        rw [makePackedPlaintext_replicate_set]
        by_cases hji : (j : ℕ) = i
        · have hrot : ((((j : ℕ) : ℤ) + rmvRotOffset (i : ℤ) (k : ℤ)) % (N : ℤ)).toNat = k - 1 :=
            (rmv_rot_hits_last_iff N i k j j.isLt hik hkN).mpr hji
          rw [if_pos hji, if_pos (by simpa using hrot)]
          simp only [Int.cast_one, mul_one]
          exact congrArg ct (Fin.ext (by simpa using hrot))
        · have hrot : ¬ (((((j : ℕ) : ℤ) + rmvRotOffset (i : ℤ) (k : ℤ)) % (N : ℤ)).toNat = k - 1) :=
            fun hh => hji ((rmv_rot_hits_last_iff N i k j j.isLt hik hkN).mp hh)
          rw [if_neg hji, if_neg (by simpa using hrot)]
          simp
    · intro j hj hji
      simp only [evalMult, evalAdd]
      rw [hmask j, hfinm j, hshift j, if_neg hji, if_neg hji, if_neg (by omega)]
      simp
    · intro j hj
      simp only [evalMult, evalAdd]
      rw [hmask j, hfinm j, hshift j]
      rcases eq_or_lt_of_le hj with h | h
      · have hji : (j : ℕ) = k - 1 := by omega
        simp [hji]
      · have h1 : ¬ (j : ℕ) = k - 1 := by omega
        have h2 : ¬ (j : ℕ) = i := by omega
        rw [if_neg h2, if_neg h2, if_neg h1, hdense j (by omega)]
        simp
    · intro h
      simp only [evalMult, evalAdd]
      rw [hmask ⟨i, by omega⟩, hfinm ⟨i, by omega⟩, hshift ⟨i, by omega⟩]
      rw [if_pos rfl, if_pos rfl]
      have hne : i ≠ k - 1 := by omega
      simp [hne]

/-- Witness for C1 (the spec's compaction example): `N = 4`,
`ct = Encode [1000, 2000, 1500]`, `Remove(ct, 1, 3)`. -/
theorem packRmv_spec_witness :
    ∃ r, hermesPackRmv 4 true (makePackedPlaintext 4 [1000, 2000, 1500])
        (1 : ℤ) (3 : ℤ) = some r ∧
      ((1 : ℕ) = 3 - 1 → r = evalMult (makePackedPlaintext 4 [1000, 2000, 1500])
        (makePackedPlaintext 4 ((List.replicate 4 (1 : ℤ)).set 1 0))) ∧
      (∀ j : Fin 4, (j : ℕ) < 3 - 1 → (j : ℕ) ≠ 1 →
        r j = makePackedPlaintext 4 [1000, 2000, 1500] j) ∧
      (∀ j : Fin 4, 3 - 1 ≤ (j : ℕ) → r j = 0) ∧
      ((1 : ℕ) < 3 - 1 →
        r ⟨1, by omega⟩ = makePackedPlaintext 4 [1000, 2000, 1500] ⟨3 - 1, by omega⟩) :=
  packRmv_spec 4 1 3 (makePackedPlaintext 4 [1000, 2000, 1500])
    (by norm_num) (by norm_num) (by decide)

/-- `HERMES_PACK_GROUP_SUM`'s per-group state (`struct SumState`,
src/pack/packsum.cpp): a clear running sum, reset to `0` by `_clear`. -/
def groupSumClear : ℤ := 0

/-- `HERMES_PACK_GROUP_SUM_add` (src/pack/packsum.cpp lines 109-115):
skip SQL NULL arguments, otherwise add the row's INT value to the clear
sum. -/
def groupSumAdd (sum : ℤ) (arg : Option ℤ) : ℤ :=
  match arg with
  | none => sum
  | some val => sum + val

/-- `HERMES_PACK_GROUP_SUM` final function (src/pack/packsum.cpp lines
117-153): packs the clear sum into slot 0 (`MakePackedPlaintext({sum})`),
encrypts it and returns the ciphertext unconditionally — the state
carries no `initialized` flag and there is no emptiness check. -/
def hermesPackGroupSum (N : ℕ) (sum : ℤ) : Option (Vec N) :=
  some (encryptPt N (makePackedPlaintext N [sum]))

/-- `HERMES_PACK_GLOBAL_SUM`'s accumulator (`struct CipherAccState`,
src/pack/packsum.cpp): `none` models `initialized == false` (as set by
`_clear`). -/
def globalSumAdd {N : ℕ} (st : Option (Vec N)) (ct : Vec N) : Option (Vec N) :=
  match st with
  | none => some ct
  | some acc => some (evalAdd acc ct)

/-- `HERMES_PACK_GLOBAL_SUM` final function (src/pack/packsum.cpp lines
205-219): SQL NULL (`none`) when no `_add` occurred, otherwise the
accumulated ciphertext. -/
def hermesPackGlobalSum (N : ℕ) (st : Option (Vec N)) : Option (Vec N) := st

/-- One whole aggregation pass of `HERMES_PACK_GLOBAL_SUM`: `_clear`
(state `none`), one `_add` per ciphertext, then the final function. -/
def globalSumFold (N : ℕ) (l : List (Vec N)) : Option (Vec N) :=
  hermesPackGlobalSum N (l.foldl globalSumAdd none)

/-- `HERMES_ENC_SINGULAR` (src/pack/packsum.cpp lines 266-322): encrypts
one integer into slot 0 of a zero-padded packed plaintext. -/
def encSingular (N : ℕ) (v : ℤ) : Vec N :=
  encryptPt N (makePackedPlaintext N ((List.replicate N (0 : ℤ)).set 0 v))

lemma evalAdd_eq_add {N : ℕ} (x y : Vec N) : evalAdd x y = x + y := rfl

lemma globalSumAdd_foldl_some (N : ℕ) (acc : Vec N) (l : List (Vec N)) :
    l.foldl globalSumAdd (some acc) = some (acc + l.sum) := by
  induction l generalizing acc with
  | nil => simp
  | cons x xs ih =>
    simp only [List.foldl_cons, globalSumAdd, evalAdd_eq_add, ih, List.sum_cons]
    rw [add_assoc]

lemma globalSumFold_nil (N : ℕ) : globalSumFold N [] = none := rfl

lemma globalSumFold_cons (N : ℕ) (x : Vec N) (xs : List (Vec N)) :
    globalSumFold N (x :: xs) = some (x + xs.sum) := by
  unfold globalSumFold hermesPackGlobalSum
  rw [List.foldl_cons]
  exact globalSumAdd_foldl_some N x xs

/-- C6: for a fixed multiset of ciphertexts under one context, folding
through `HERMES_PACK_GLOBAL_SUM_add` in any order yields accumulators
that decrypt identically — ciphertext addition is slot-wise addition in
the plaintext ring, which is associative and commutative. -/
theorem globalSum_perm_invariant (N : ℕ) (l1 l2 : List (Vec N))
    (hperm : l1.Perm l2) :
    globalSumFold N l1 = globalSumFold N l2 := by
  rcases l1 with _ | ⟨x, xs⟩ <;> rcases l2 with _ | ⟨y, ys⟩
  · rfl
  · exact absurd hperm.length_eq (by simp)
  · exact absurd hperm.length_eq (by simp)
  · rw [globalSumFold_cons, globalSumFold_cons]
    exact congrArg some (by simpa using hperm.sum_eq)

/-- Witness for C6: the two orders of the spec's two-tier example group
sums `{[10000], [11900]}` decrypt identically. -/
theorem globalSum_perm_invariant_witness :
    globalSumFold 4 [makePackedPlaintext 4 [10000], makePackedPlaintext 4 [11900]] =
      globalSumFold 4 [makePackedPlaintext 4 [11900], makePackedPlaintext 4 [10000]] :=
  globalSum_perm_invariant 4 _ _
    (List.Perm.swap (makePackedPlaintext 4 [11900]) (makePackedPlaintext 4 [10000]) [])

/-- C3 counterexample: `HERMES_PACK_GROUP_SUM` finalised on the state
left by `_clear` with zero `_add` calls (clear sum `0`) returns an
encryption of the all-zero vector — a ciphertext, not the SQL NULL
no-data signal the claim requires of both tiers. -/
theorem groupSum_empty_returns_encrypted_zero :
    hermesPackGroupSum 4 groupSumClear = some (fun _ => (0 : Pt)) ∧
      hermesPackGroupSum 4 groupSumClear ≠ none := by
  constructor
  · refine congrArg some (funext fun j => ?_)
    unfold groupSumClear encryptPt makePackedPlaintext
    fin_cases j <;> rfl
  · simp [hermesPackGroupSum]

/-- C3 amended: the empty-group no-data contract holds for the
cross-group `HERMES_PACK_GLOBAL_SUM` (NULL when no `_add` occurred, the
accumulator when at least one did), but not for the per-group
`HERMES_PACK_GROUP_SUM`, which always returns an encryption of its clear
sum — an encrypted zero for an empty group. -/
theorem finalize_empty_amended (N : ℕ) :
    globalSumFold N [] = none ∧
      (∀ l : List (Vec N), l ≠ [] → (globalSumFold N l).isSome) ∧
      (∀ s : ℤ, hermesPackGroupSum N s =
        some (encryptPt N (makePackedPlaintext N [s]))) := by
  refine ⟨rfl, ?_, fun s => rfl⟩
  intro l hl
  rcases l with _ | ⟨x, xs⟩
  · exact absurd rfl hl
  · rw [globalSumFold_cons]
    rfl

/-- Witness for the amended C3 at `N = 4`. -/
theorem finalize_empty_amended_witness :
    globalSumFold 4 [] = none ∧
      (globalSumFold 4 [makePackedPlaintext 4 [7]]).isSome ∧
      hermesPackGroupSum 4 5 = some (encryptPt 4 (makePackedPlaintext 4 [5])) :=
  ⟨(finalize_empty_amended 4).1,
    (finalize_empty_amended 4).2.1 _ (by simp),
    (finalize_empty_amended 4).2.2 5⟩

lemma encSingular_apply (N : ℕ) (v : ℤ) (j : Fin N) :
    encSingular N v j = if (j : ℕ) = 0 then (v : Pt) else 0 := by
  unfold encSingular encryptPt
  rw [makePackedPlaintext_replicate_set]
  split <;> simp

lemma makePackedPlaintext_singleton (N : ℕ) (s : ℤ) (j : Fin N) :
    makePackedPlaintext N [s] j = if (j : ℕ) = 0 then (s : Pt) else 0 := by
  unfold makePackedPlaintext
  by_cases hj : (j : ℕ) = 0
  · rw [hj, if_pos rfl]
    rfl
  · rw [if_neg hj]
    rcases Nat.exists_eq_succ_of_ne_zero hj with ⟨m, hm⟩
    rw [hm]
    simp

lemma sum_map_encSingular (N : ℕ) (vals : List ℤ) (j : Fin N) :
    (vals.map (encSingular N)).sum j = if (j : ℕ) = 0 then ((vals.sum : ℤ) : Pt) else 0 := by
  induction vals with
  | nil =>
    simp only [List.map_nil, List.sum_nil, Pi.zero_apply]
    split <;> simp
  | cons v vs ih =>
    simp only [List.map_cons, List.sum_cons, Pi.add_apply, ih, encSingular_apply]
    split <;> push_cast <;> ring

lemma groupSumAdd_foldl (a : ℤ) (l : List ℤ) :
    l.foldl (fun s x => groupSumAdd s (some x)) a = a + l.sum := by
  induction l generalizing a with
  | nil => simp
  | cons x xs ih =>
    rw [List.foldl_cons, ih]
    simp only [groupSumAdd, List.sum_cons]
    ring

/-- C7: for every non-empty multiset of clear integer inputs, the
optimized local sum (accumulate in the clear, encrypt once at finalize —
HERMES_PACK_GROUP_SUM) decrypts to the same vector as the reference fold
that encrypts each input individually (HERMES_ENC_SINGULAR) and adds the
ciphertexts homomorphically (the HERMES_PACK_GLOBAL_SUM fold). -/
theorem groupSum_refines_ciphertext_fold (N : ℕ) (vals : List ℤ)
    (h : vals ≠ []) :
    globalSumFold N (vals.map (encSingular N)) =
      hermesPackGroupSum N
        (vals.foldl (fun s v => groupSumAdd s (some v)) groupSumClear) := by
  rcases vals with _ | ⟨v, vs⟩
  · exact absurd rfl h
  · rw [List.map_cons, globalSumFold_cons]
    unfold hermesPackGroupSum encryptPt
    refine congrArg some (funext fun j => ?_)
    rw [groupSumAdd_foldl]
    simp only [groupSumClear, zero_add, Pi.add_apply, makePackedPlaintext_singleton,
      sum_map_encSingular, encSingular_apply, List.sum_cons]
    split <;> push_cast <;> ring

/-- Witness for C7 on the spec's group A example `[5200, 4800]`. -/
theorem groupSum_refines_ciphertext_fold_witness :
    globalSumFold 4 ([5200, 4800].map (encSingular 4)) =
      hermesPackGroupSum 4
        ([5200, 4800].foldl (fun s v => groupSumAdd s (some v)) groupSumClear) :=
  groupSum_refines_ciphertext_fold 4 [5200, 4800] (by simp)

/-- `HERMES_PACK_CONVERT` (src/pack/packing.cpp lines 175-246): collect
the group's INT values, return SQL NULL for an empty group, otherwise
encrypt the packed plaintext of the collected values. -/
def hermesPackConvert (N : ℕ) (values : List ℤ) : Option (Vec N) :=
  if values = [] then none
  else some (encryptPt N (makePackedPlaintext N values))

/-- Centered signed representative of a plaintext slot: OpenFHE's packed
decoding returns signed int64 values; modelled from the spec, which
fixes signed plaintext integers up to about ±134 million for the modulus
268369921 (src/crypto/context.cpp comment block). -/
def centeredLift (x : Pt) : ℤ :=
  if 2 * x.val ≤ plaintextModulus then (x.val : ℤ)
  else (x.val : ℤ) - plaintextModulus

/-- `HERMES_DEC_VECTOR_BFV` (src/pack/packing.cpp lines 73-165): decrypt,
set the plaintext length to the batch size, error out if the decoded
vector is empty, then return `std::to_string(values[0])` — only slot 0;
the loop that would build the full comma-separated vector is commented
out in the source.  The returned text is modelled as the list of
integers it denotes. -/
def hermesDecVectorBfv (N : ℕ) (ct : Vec N) : Option (List ℤ) :=
  if h : 0 < N then some [centeredLift (ct ⟨0, h⟩)] else none

/-- C2, evaluated at the round-trip input `v = [1000, 2000, 1500]` with
`N = 4`: encoding `v` and then decoding returns only `[1000]` — slot 0 as
a string — not `v` itself, because `HERMES_DEC_VECTOR_BFV` keeps the
full-vector loop commented out, contradicting its own doc comment
("Returns: Comma-separated integer string like 1000,2000,1500"). -/
theorem decVector_returns_only_first_slot :
    (hermesPackConvert 4 [1000, 2000, 1500]).bind (hermesDecVectorBfv 4) =
      some [1000] ∧
      some [1000] ≠ some ([1000, 2000, 1500] : List ℤ) := by
  constructor
  · decide
  · simp

/-- The rotation-key index list generated by `generateKeypair`
(src/crypto/keygen.cpp lines 12-27):
`for (int i = 1; i < slot_count; i <<= 1) { push i; push -i; }`. -/
def rotIndicesFrom (sc : ℕ) (i : ℕ) : List ℤ :=
  if h : 0 < i ∧ i < sc then (i : ℤ) :: (-(i : ℤ)) :: rotIndicesFrom sc (2 * i)
  else []
termination_by sc - i
decreasing_by omega

/-- The full set of provisioned rotation offsets for slot count `sc`. -/
def rotIndices (sc : ℕ) : List ℤ := rotIndicesFrom sc 1

lemma mem_rotIndicesFrom (sc : ℕ) : ∀ i : ℕ, 0 < i → ∀ z : ℤ,
    (z ∈ rotIndicesFrom sc i ↔
      ∃ m : ℕ, i * 2 ^ m < sc ∧
        (z = ((i * 2 ^ m : ℕ) : ℤ) ∨ z = -((i * 2 ^ m : ℕ) : ℤ))) := by
  intro i
  induction i using rotIndicesFrom.induct sc with
  | case1 x h ih =>
    intro hi z
    rw [rotIndicesFrom, dif_pos h]
    simp only [List.mem_cons]
    rw [ih (by omega) z]
    constructor
    · rintro (hz | hz | ⟨m, hm, hz⟩)
      · exact ⟨0, by simpa using h.2, Or.inl (by simpa using hz)⟩
      · exact ⟨0, by simpa using h.2, Or.inr (by simpa using hz)⟩
      · have he : x * 2 ^ (m + 1) = 2 * x * 2 ^ m := by ring
        refine ⟨m + 1, by omega, ?_⟩
        rcases hz with hz | hz
        · exact Or.inl (by rw [hz]; push_cast; ring)
        · exact Or.inr (by rw [hz]; push_cast; ring)
    · rintro ⟨m, hm, hz⟩
      rcases m with _ | m
      · simp only [pow_zero, Nat.mul_one] at hm hz
        rcases hz with hz | hz
        · exact Or.inl hz
        · exact Or.inr (Or.inl hz)
      · have he : x * 2 ^ (m + 1) = 2 * x * 2 ^ m := by ring
        refine Or.inr (Or.inr ⟨m, by omega, ?_⟩)
        rcases hz with hz | hz
        · exact Or.inl (by rw [hz]; push_cast; ring)
        · exact Or.inr (by rw [hz]; push_cast; ring)
  | case2 x h =>
    intro hi z
    rw [rotIndicesFrom, dif_neg h]
    simp only [List.not_mem_nil, false_iff, not_exists]
    intro m hm
    have h2 : 0 < 2 ^ m := Nat.pos_pow_of_pos m (by omega)
    have h3 : x ≤ x * 2 ^ m := Nat.le_mul_of_pos_right x h2
    omega

lemma mem_rotIndices (N : ℕ) (z : ℤ) :
    z ∈ rotIndices N ↔
      ∃ m : ℕ, 2 ^ m < N ∧ (z = ((2 ^ m : ℕ) : ℤ) ∨ z = -((2 ^ m : ℕ) : ℤ)) := by
  have h := mem_rotIndicesFrom N 1 one_pos z
  simpa using h

/-- C8 counterexample: at slot count `N = 8`, `Remove(ct, 0, 4)` satisfies
the precondition `0 ≤ index < k ≤ N` and is interior (`index ≠ k-1`), so
`HERMES_PACK_RMV` rotates by offset `(k-1) - index = 3`; yet the offsets
`generateKeypair` provisions at `N = 8` are exactly `±1, ±2, ±4` — the
needed offset `3` is not among them, refuting the claim that the
provisioned offsets suffice for every rotation Remove performs. -/
theorem rotKeys_insufficient_counterexample :
    rotIndices 8 = [1, -1, 2, -2, 4, -4] ∧
      (0 : ℤ) ≤ 0 ∧ (0 : ℤ) < 4 ∧ (4 : ℤ) ≤ 8 ∧ (0 : ℤ) ≠ 4 - 1 ∧
      rmvRotOffset 0 4 = 3 ∧ rmvRotOffset 0 4 ∉ rotIndices 8 := by
  have hr : rotIndices 8 = [1, -1, 2, -2, 4, -4] := by
    unfold rotIndices
    rw [rotIndicesFrom, dif_pos (by norm_num)]
    rw [rotIndicesFrom, dif_pos (by norm_num)]
    rw [rotIndicesFrom, dif_pos (by norm_num)]
    rw [rotIndicesFrom, dif_neg (by norm_num)]
    norm_num
  refine ⟨hr, by norm_num, by norm_num, by norm_num, by norm_num, rfl, ?_⟩
  rw [hr]
  decide

/-- C8 amended: `generateKeypair` provisions rotation keys for exactly
the offsets `±2^m` with `2^m < N` (for a power-of-two slot count these
are `±1, ±2, ..., ±N/2`), and an interior Remove's rotation offset
`(k-1) - index` is provisioned iff that offset is itself a power of two
below `N`; the tail case performs no rotation.  The provisioned offsets
therefore do not cover every rotation Remove can perform. -/
theorem rotKeys_spec (N : ℕ) (z : ℤ) :
    (z ∈ rotIndices N ↔
      ∃ m : ℕ, 2 ^ m < N ∧ (z = ((2 ^ m : ℕ) : ℤ) ∨ z = -((2 ^ m : ℕ) : ℤ))) ∧
    (∀ index k : ℕ, index < k → k ≤ N →
      (rmvRotOffset (index : ℤ) (k : ℤ) ∈ rotIndices N ↔
        ∃ m : ℕ, 2 ^ m < N ∧ rmvRotOffset (index : ℤ) (k : ℤ) = ((2 ^ m : ℕ) : ℤ))) := by
  refine ⟨mem_rotIndices N z, ?_⟩
  intro index k hik hkN
  rw [mem_rotIndices]
  constructor
  · rintro ⟨m, hm, hz | hz⟩
    · exact ⟨m, hm, hz⟩
    · have h2 : 0 < 2 ^ m := Nat.pos_pow_of_pos m (by omega)
      have : 0 ≤ rmvRotOffset (index : ℤ) (k : ℤ) := by
        unfold rmvRotOffset
        omega
      omega
  · rintro ⟨m, hm, hz⟩
    exact ⟨m, hm, Or.inl hz⟩

/-- Witness for the amended C8 at `N = 8`, `z = 2`, `index = 1`, `k = 3`
(a provisioned interior removal: offset `1 = 2^0`). -/
theorem rotKeys_spec_witness :
    (((2 : ℤ) ∈ rotIndices 8 ↔
      ∃ m : ℕ, 2 ^ m < 8 ∧
        ((2 : ℤ) = ((2 ^ m : ℕ) : ℤ) ∨ (2 : ℤ) = -((2 ^ m : ℕ) : ℤ)))) ∧
    (rmvRotOffset ((1 : ℕ) : ℤ) ((3 : ℕ) : ℤ) ∈ rotIndices 8 ↔
      ∃ m : ℕ, 2 ^ m < 8 ∧
        rmvRotOffset ((1 : ℕ) : ℤ) ((3 : ℕ) : ℤ) = ((2 ^ m : ℕ) : ℤ)) :=
  ⟨(rotKeys_spec 8 2).1, (rotKeys_spec 8 2).2 1 3 (by norm_num) (by norm_num)⟩


/-- The base64 alphabet of `encodeBase64`/`decodeBase64`
(src/crypto/base64.cpp), as ASCII codes. -/
def b64chars : List ℕ :=
  [65, 66, 67, 68, 69, 70, 71, 72, 73, 74, 75, 76, 77, 78, 79, 80, 81, 82,
   83, 84, 85, 86, 87, 88, 89, 90,
   97, 98, 99, 100, 101, 102, 103, 104, 105, 106, 107, 108, 109, 110, 111,
   112, 113, 114, 115, 116, 117, 118, 119, 120, 121, 122,
   48, 49, 50, 51, 52, 53, 54, 55, 56, 57, 43, 47]

/-- The decoding table `T` of `decodeBase64` (src/crypto/base64.cpp):
`T[c]` is the index of `c` in the alphabet, `-1` (here `none`) for
characters outside it. -/
def b64T (c : ℕ) : Option ℕ := b64chars.indexOf? c

/-- The characters emitted by the inner `while (valb >= 0)` loop of
`encodeBase64`: `out.push_back(b64_chars[(val >> valb) & 0x3F])`,
`valb -= 6` each iteration. -/
def encEmit (val : ℕ) (valb : ℤ) : List ℕ :=
  if 0 ≤ valb then b64chars.getD ((val >>> valb.toNat) % 64) 0 :: encEmit val (valb - 6)
  else []
termination_by (valb + 6).toNat
decreasing_by omega

/-- The value of `valb` after the inner emit loop of `encodeBase64`
(`valb -= 6` while `valb >= 0`). -/
def encWhileValb (valb : ℤ) : ℤ :=
  if 0 ≤ valb then encWhileValb (valb - 6) else valb
termination_by (valb + 6).toNat
decreasing_by omega

/-- The per-byte loop of `encodeBase64` (src/crypto/base64.cpp):
`val = (val << 8) + c; valb += 8;` then the emit loop; returns the
emitted characters together with the final `(val, valb)` state. -/
def encLoop : List ℕ → ℕ → ℤ → List ℕ × ℕ × ℤ
  | [], val, valb => ([], val, valb)
  | c :: rest, val, valb =>
    let val2 := val * 256 + c
    let valb2 := valb + 8
    let r := encLoop rest val2 (encWhileValb valb2)
    (encEmit val2 valb2 ++ r.1, r.2)

/-- `while (out.size() % 4) out.push_back(61)` — the `61` is the ASCII
code of the padding character of src/crypto/base64.cpp. -/
def padEq (out : List ℕ) : List ℕ :=
  if out.length % 4 = 0 then out else padEq (out ++ [61])
termination_by (4 - out.length % 4) % 4
decreasing_by
  simp only [List.length_append, List.length_cons, List.length_nil]
  omega

/-- `encodeBase64` (src/crypto/base64.cpp lines 8-24) on byte lists: the
byte loop from state `(0, -6)`, then `if (valb > -6)` one final partial
character `b64_chars[((val << 8) >> (valb + 8)) & 0x3F]`, then padding to
a multiple of four characters. -/
def encodeBase64 (input : List ℕ) : List ℕ :=
  let r := encLoop input 0 (-6)
  let out2 :=
    if -6 < r.2.2 then
      r.1 ++ [b64chars.getD (((r.2.1 * 256) >>> (r.2.2 + 8).toNat) % 64) 0]
    else r.1
  padEq out2

/-- The character loop of `decodeBase64` (src/crypto/base64.cpp lines
26-43): stop at the first character with `T[c] == -1`, otherwise
`val = (val << 6) + T[c]; valb += 6;` and emit `(val >> valb) & 0xFF`
whenever `valb` becomes non-negative (then `valb -= 8`). -/
def decLoop : List ℕ → ℕ → ℤ → List ℕ
  | [], _, _ => []
  | c :: rest, val, valb =>
    match b64T c with
    | none => []
    | some t =>
      let val2 := val * 64 + t
      let valb2 := valb + 6
      if 0 ≤ valb2 then ((val2 >>> valb2.toNat) % 256) :: decLoop rest val2 (valb2 - 8)
      else decLoop rest val2 valb2

/-- `decodeBase64` (src/crypto/base64.cpp lines 26-43) on byte lists,
from state `(0, -8)`. -/
def decodeBase64 (input : List ℕ) : List ℕ := decLoop input 0 (-8)

lemma b64T_getD : ∀ w : ℕ, w < 64 → b64T (b64chars.getD w 0) = some w := by decide

lemma b64T_61 : b64T 61 = none := by decide

lemma encEmit_neg (val : ℕ) (valb : ℤ) (h : valb < 0) : encEmit val valb = [] := by
  rw [encEmit, if_neg (by omega)]

lemma encEmit_two (val : ℕ) :
    encEmit val 2 = [b64chars.getD ((val >>> 2) % 64) 0] := by
  rw [encEmit, if_pos (by norm_num)]
  norm_num [encEmit_neg]
  rfl

lemma encEmit_four (val : ℕ) :
    encEmit val 4 = [b64chars.getD ((val >>> 4) % 64) 0] := by
  rw [encEmit, if_pos (by norm_num)]
  norm_num [encEmit_neg]
  rfl

lemma encEmit_six (val : ℕ) :
    encEmit val 6 = [b64chars.getD ((val >>> 6) % 64) 0, b64chars.getD (val % 64) 0] := by
  rw [encEmit, if_pos (by norm_num)]
  norm_num
  rw [encEmit, if_pos (by norm_num)]
  norm_num [encEmit_neg]
  rfl

lemma encWhileValb_two : encWhileValb 2 = -4 := by
  rw [encWhileValb, if_pos (by norm_num)]
  norm_num
  rw [encWhileValb, if_neg (by norm_num)]

lemma encWhileValb_four : encWhileValb 4 = -2 := by
  rw [encWhileValb, if_pos (by norm_num)]
  norm_num
  rw [encWhileValb, if_neg (by norm_num)]

lemma encWhileValb_six : encWhileValb 6 = -6 := by
  rw [encWhileValb, if_pos (by norm_num)]
  norm_num
  rw [encWhileValb, if_pos (by norm_num)]
  norm_num
  rw [encWhileValb, if_neg (by norm_num)]

lemma encLoop_one (a ev : ℕ) :
    encLoop [a] ev (-6) =
      ([b64chars.getD (((ev * 256 + a) >>> 2) % 64) 0], ev * 256 + a, -4) := by
  simp only [encLoop]
  norm_num [encEmit_two, encWhileValb_two]

lemma encLoop_two (a b ev : ℕ) :
    encLoop [a, b] ev (-6) =
      ([b64chars.getD (((ev * 256 + a) >>> 2) % 64) 0,
        b64chars.getD ((((ev * 256 + a) * 256 + b) >>> 4) % 64) 0],
       (ev * 256 + a) * 256 + b, -2) := by
  simp only [encLoop]
  norm_num [encEmit_two, encEmit_four, encWhileValb_two, encWhileValb_four]

lemma encLoop_cons3 (a b c : ℕ) (l : List ℕ) (ev : ℕ) :
    encLoop (a :: b :: c :: l) ev (-6) =
      (b64chars.getD (((ev * 256 + a) >>> 2) % 64) 0 ::
       b64chars.getD ((((ev * 256 + a) * 256 + b) >>> 4) % 64) 0 ::
       b64chars.getD (((((ev * 256 + a) * 256 + b) * 256 + c) >>> 6) % 64) 0 ::
       b64chars.getD ((((ev * 256 + a) * 256 + b) * 256 + c) % 64) 0 ::
       (encLoop l (((ev * 256 + a) * 256 + b) * 256 + c) (-6)).1,
       (encLoop l (((ev * 256 + a) * 256 + b) * 256 + c) (-6)).2) := by
  simp only [encLoop]
  norm_num [encEmit_two, encEmit_four, encEmit_six,
    encWhileValb_two, encWhileValb_four, encWhileValb_six]



lemma decLoop_cons_step (ch t : ℕ) (rest : List ℕ) (val : ℕ) (valb : ℤ)
    (ht : b64T ch = some t) :
    decLoop (ch :: rest) val valb =
      if 0 ≤ valb + 6 then
        ((val * 64 + t) >>> (valb + 6).toNat) % 256 ::
          decLoop rest (val * 64 + t) (valb + 6 - 8)
      else decLoop rest (val * 64 + t) (valb + 6) := by
  simp only [decLoop, ht]

lemma decLoop_invalid (ch : ℕ) (rest : List ℕ) (val : ℕ) (valb : ℤ)
    (h : b64T ch = none) : decLoop (ch :: rest) val valb = [] := by
  simp only [decLoop, h]

lemma decLoop_m8 (ch t : ℕ) (rest : List ℕ) (val : ℕ) (ht : b64T ch = some t) :
    decLoop (ch :: rest) val (-8) = decLoop rest (val * 64 + t) (-2) := by
  rw [decLoop_cons_step ch t rest val (-8) ht, if_neg (by norm_num)]
  norm_num

lemma decLoop_m2 (ch t : ℕ) (rest : List ℕ) (val : ℕ) (ht : b64T ch = some t) :
    decLoop (ch :: rest) val (-2) =
      ((val * 64 + t) >>> 4) % 256 :: decLoop rest (val * 64 + t) (-4) := by
  rw [decLoop_cons_step ch t rest val (-2) ht, if_pos (by norm_num)]
  simp

lemma decLoop_m4 (ch t : ℕ) (rest : List ℕ) (val : ℕ) (ht : b64T ch = some t) :
    decLoop (ch :: rest) val (-4) =
      ((val * 64 + t) >>> 2) % 256 :: decLoop rest (val * 64 + t) (-6) := by
  rw [decLoop_cons_step ch t rest val (-4) ht, if_pos (by norm_num)]
  simp

lemma decLoop_m6 (ch t : ℕ) (rest : List ℕ) (val : ℕ) (ht : b64T ch = some t) :
    decLoop (ch :: rest) val (-6) =
      (val * 64 + t) % 256 :: decLoop rest (val * 64 + t) (-8) := by
  rw [decLoop_cons_step ch t rest val (-6) ht, if_pos (by norm_num)]
  simp

lemma padEq_done (out : List ℕ) (h : out.length % 4 = 0) : padEq out = out := by
  rw [padEq, if_pos h]

lemma padEq_append_of_mod (p : List ℕ) (hp : p.length % 4 = 0) :
    ∀ X : List ℕ, padEq (p ++ X) = p ++ padEq X := by
  intro X
  induction X using padEq.induct with
  | case1 Y h =>
    rw [padEq_done Y h, padEq_done (p ++ Y) (by
      simp only [List.length_append]
      omega)]
  | case2 Y h ih =>
    rw [padEq, if_neg (by
      simp only [List.length_append]
      omega)]
    rw [List.append_assoc, ih]
    conv_rhs => rw [padEq, if_neg h]

lemma padEq_two (x y : ℕ) : padEq [x, y] = [x, y, 61, 61] := by
  rw [padEq, if_neg (by norm_num)]
  simp only [List.cons_append, List.nil_append]
  rw [padEq, if_neg (by norm_num)]
  simp only [List.cons_append, List.nil_append]
  rw [padEq_done _ (by norm_num)]

lemma padEq_three (x y z : ℕ) : padEq [x, y, z] = [x, y, z, 61] := by
  rw [padEq, if_neg (by norm_num)]
  simp only [List.cons_append, List.nil_append]
  rw [padEq_done _ (by norm_num)]

lemma decLoop_chunk (dv ev a b c : ℕ) (ha : a < 256) (hb : b < 256)
    (hc : c < 256) (Z : List ℕ) :
    decLoop (b64chars.getD (((ev * 256 + a) >>> 2) % 64) 0 ::
             b64chars.getD ((((ev * 256 + a) * 256 + b) >>> 4) % 64) 0 ::
             b64chars.getD (((((ev * 256 + a) * 256 + b) * 256 + c) >>> 6) % 64) 0 ::
             b64chars.getD ((((ev * 256 + a) * 256 + b) * 256 + c) % 64) 0 :: Z) dv (-8) =
      a :: b :: c ::
        decLoop Z ((((dv * 64 + ((ev * 256 + a) >>> 2) % 64) * 64 +
          (((ev * 256 + a) * 256 + b) >>> 4) % 64) * 64 +
          ((((ev * 256 + a) * 256 + b) * 256 + c) >>> 6) % 64) * 64 +
          (((ev * 256 + a) * 256 + b) * 256 + c) % 64) (-8) := by
  have h1 : ((ev * 256 + a) >>> 2) % 64 < 64 := Nat.mod_lt _ (by norm_num)
  have h2 : (((ev * 256 + a) * 256 + b) >>> 4) % 64 < 64 := Nat.mod_lt _ (by norm_num)
  have h3 : ((((ev * 256 + a) * 256 + b) * 256 + c) >>> 6) % 64 < 64 :=
    Nat.mod_lt _ (by norm_num)
  have h4 : (((ev * 256 + a) * 256 + b) * 256 + c) % 64 < 64 :=
    Nat.mod_lt _ (by norm_num)
  rw [decLoop_m8 _ _ _ _ (b64T_getD _ h1), decLoop_m2 _ _ _ _ (b64T_getD _ h2),
    decLoop_m4 _ _ _ _ (b64T_getD _ h3), decLoop_m6 _ _ _ _ (b64T_getD _ h4)]
  simp only [List.cons.injEq]
  refine ⟨?_, ?_, ?_, trivial⟩ <;>
    · simp only [Nat.shiftRight_eq_div_pow]
      norm_num
      omega

lemma if_cons4_push {α : Type} (c : Prop) [Decidable c] (w1 w2 w3 w4 : α)
    (q r : List α) :
    (if c then (w1 :: w2 :: w3 :: w4 :: q) ++ r else w1 :: w2 :: w3 :: w4 :: q) =
      w1 :: w2 :: w3 :: w4 :: (if c then q ++ r else q) := by
  split <;> simp

lemma padEq_cons4 (w1 w2 w3 w4 : ℕ) (X : List ℕ) :
    padEq (w1 :: w2 :: w3 :: w4 :: X) = w1 :: w2 :: w3 :: w4 :: padEq X := by
  have h := padEq_append_of_mod [w1, w2, w3, w4] (by norm_num) X
  simpa using h

lemma dec_enc_loop : ∀ (n : ℕ) (l : List ℕ), l.length = n →
    (∀ x ∈ l, x < 256) → ∀ ev dv : ℕ,
    decLoop (padEq (if -6 < (encLoop l ev (-6)).2.2
      then (encLoop l ev (-6)).1 ++
        [b64chars.getD ((((encLoop l ev (-6)).2.1 * 256) >>>
          ((encLoop l ev (-6)).2.2 + 8).toNat) % 64) 0]
      else (encLoop l ev (-6)).1)) dv (-8) = l := by
  intro n
  induction n using Nat.strong_induction_on with
  | _ n ih =>
    intro l hn hl ev dv
    rcases l with _ | ⟨a, l⟩
    · have henc : encLoop ([] : List ℕ) ev (-6) = ([], ev, -6) := rfl
      rw [henc]
      dsimp only
      rw [if_neg (by norm_num), padEq_done _ (by norm_num)]
      rfl
    rcases l with _ | ⟨b, l⟩
    · rw [encLoop_one]
      dsimp only
      rw [if_pos (by norm_num)]
      simp only [List.cons_append, List.nil_append]
      rw [show ((-4 : ℤ) + 8).toNat = 4 from rfl]
      rw [padEq_two]
      have h1 : ((ev * 256 + a) >>> 2) % 64 < 64 := Nat.mod_lt _ (by norm_num)
      have h2 : (((ev * 256 + a) * 256) >>> 4) % 64 < 64 := Nat.mod_lt _ (by norm_num)
      rw [decLoop_m8 _ _ _ _ (b64T_getD _ h1), decLoop_m2 _ _ _ _ (b64T_getD _ h2),
        decLoop_invalid _ _ _ _ b64T_61]
      have ha : a < 256 := hl a (by simp)
      simp only [List.cons.injEq]
      refine ⟨?_, trivial⟩
      simp only [Nat.shiftRight_eq_div_pow]
      norm_num
      omega
    rcases l with _ | ⟨c, l⟩
    · rw [encLoop_two]
      dsimp only
      rw [if_pos (by norm_num)]
      simp only [List.cons_append, List.nil_append]
      rw [show ((-2 : ℤ) + 8).toNat = 6 from rfl]
      rw [padEq_three]
      have h1 : ((ev * 256 + a) >>> 2) % 64 < 64 := Nat.mod_lt _ (by norm_num)
      have h2 : (((ev * 256 + a) * 256 + b) >>> 4) % 64 < 64 := Nat.mod_lt _ (by norm_num)
      have h3 : ((((ev * 256 + a) * 256 + b) * 256) >>> 6) % 64 < 64 :=
        Nat.mod_lt _ (by norm_num)
      rw [decLoop_m8 _ _ _ _ (b64T_getD _ h1), decLoop_m2 _ _ _ _ (b64T_getD _ h2),
        decLoop_m4 _ _ _ _ (b64T_getD _ h3), decLoop_invalid _ _ _ _ b64T_61]
      have ha : a < 256 := hl a (by simp)
      have hbb : b < 256 := hl b (by simp)
      simp only [List.cons.injEq]
      refine ⟨?_, ?_, trivial⟩ <;>
        · simp only [Nat.shiftRight_eq_div_pow]
          norm_num
          omega
    · rw [encLoop_cons3]
      dsimp only
      rw [if_cons4_push, padEq_cons4]
      have ha : a < 256 := hl a (by simp)
      have hbb : b < 256 := hl b (by simp)
      have hcc : c < 256 := hl c (by simp)
      rw [decLoop_chunk dv ev a b c ha hbb hcc]
      simp only [List.cons.injEq]
      refine ⟨trivial, trivial, trivial, ?_⟩
      refine ih l.length (by simp at hn; omega) l rfl
        (fun x hx => hl x (by simp [hx])) _ _

lemma dec_enc (l : List ℕ) (hl : ∀ x ∈ l, x < 256) :
    decodeBase64 (encodeBase64 l) = l := by
  have h := dec_enc_loop l.length l rfl hl 0 0
  unfold encodeBase64 decodeBase64
  exact h

lemma decLoop_stop (c : ℕ) (hc : b64T c = none) (r : List ℕ) :
    ∀ (p : List ℕ) (val : ℕ) (valb : ℤ),
      decLoop (p ++ c :: r) val valb = decLoop p val valb := by
  intro p
  induction p with
  | nil =>
    intro val valb
    rw [List.nil_append, decLoop_invalid _ _ _ _ hc]
    rfl
  | cons x p ih =>
    intro val valb
    rcases hx : b64T x with _ | t
    · rw [List.cons_append, decLoop_invalid _ _ _ _ hx, decLoop_invalid _ _ _ _ hx]
    · rw [List.cons_append, decLoop_cons_step _ _ _ _ _ hx,
        decLoop_cons_step _ _ _ _ _ hx]
      split
      · rw [ih]
      · rw [ih]

/-- C9: for every byte string `b`, `decodeBase64 (encodeBase64 b) = b`;
moreover `decodeBase64` is total — on input containing a character
outside the base64 alphabet it does not fail but silently stops decoding
at the first such character (here the first bad character after a clean
run `p`) and returns only what was decoded before it. -/
theorem base64_roundtrip_and_stops_at_invalid (b : List ℕ)
    (hb : ∀ x ∈ b, x < 256) (p r : List ℕ) (c : ℕ) (hc : b64T c = none) :
    decodeBase64 (encodeBase64 b) = b ∧
      decodeBase64 (p ++ c :: r) = decodeBase64 p := by
  constructor
  · exact dec_enc b hb
  · unfold decodeBase64
    exact decLoop_stop c hc r p 0 (-8)

/-- Witness for C9: the bytes `[72, 80, 68, 73, 67]` round-trip, and a
padding character (61) stops decoding. -/
theorem base64_roundtrip_witness :
    decodeBase64 (encodeBase64 [72, 80, 68, 73, 67]) = [72, 80, 68, 73, 67] ∧
      decodeBase64 ([84, 87] ++ 61 :: [65]) = decodeBase64 [84, 87] :=
  base64_roundtrip_and_stops_at_invalid [72, 80, 68, 73, 67] (by decide)
    [84, 87] [65] 61 (by decide)



end Hermes
